import Mathlib

/-!
Shallow embedding of `aoc-statistics.py` (class `RandomList` and its methods)
together with proofs of the specification claims about it.

Python numeric details modelled exactly: all arithmetic is over `ℤ`/`ℚ`
(in the program's actual value ranges every float computation is exact);
`random.randint lo hi` is abstracted as a stream of realized draws, and the
fact that it raises `ValueError` for `lo > hi` is modelled with `Option`;
`statistics.median` / `statistics.mean` raise on an empty list, so the
Lean versions return a junk value there and every theorem that uses them
carries a non-emptiness hypothesis; Python `round` is round-half-to-even.
-/

namespace AocStatistics

/-- State of the Python class `RandomList`: the generation bounds, the raw
items in generation order (`_items`), and the insertion-ordered compressed
value-to-count dictionary (`_compressed_items`). -/
structure RandomList where
  lower_bound : ℤ
  upper_bound : ℤ
  _items : List ℤ
  _compressed_items : List (ℤ × ℕ)
deriving DecidableEq

/-- One dictionary update from `RandomList.__init__`: if `item` is already a
key its count is incremented in place, otherwise `(item, 1)` is appended at
the end (Python dicts preserve insertion order). -/
def compressedInsert : List (ℤ × ℕ) → ℤ → List (ℤ × ℕ)
  | [], item => [(item, 1)]
  | (k, c) :: rest, item =>
      if k = item then (k, c + 1) :: rest else (k, c) :: compressedInsert rest item

/-- The `RandomList` state determined by the realized draws `items` and the
bounds: items stored in generation order, compressed dictionary built by the
incremental updates of `__init__`. -/
def randomListMk (items : List ℤ) (lo hi : ℤ) : RandomList :=
  ⟨lo, hi, items, items.foldl compressedInsert []⟩

/-- `RandomList.__init__(items_c, lo, hi)` with the pseudo-random source
abstracted as the stream `draws`.  The loop `for i in range(items_c)` runs
`items_c` times (never when `items_c ≤ 0`, since Python `range` is then
empty), and each iteration calls `random.randint(lo, hi)`, which raises
`ValueError` exactly when `lo > hi`; so construction fails iff at least one
draw happens (`1 ≤ items_c`) and the draw range is empty (`hi < lo`). -/
def randomListInit (items_c lo hi : ℤ) (draws : ℕ → ℤ) : Option RandomList :=
  if 1 ≤ items_c ∧ hi < lo then none
  else some (randomListMk ((List.range items_c.toNat).map draws) lo hi)

/-- The summand `abs(pos - target) * count` of `linear_fuel_burn`, without
the multiplicity factor. -/
def linTerm (v : ℤ) (target : ℚ) : ℚ := |(v : ℚ) - target|

/-- `RandomList.linear_fuel_burn(target)`: sum of `abs(pos - target) * count`
over the compressed dictionary. -/
def RandomList.linear_fuel_burn (r : RandomList) (target : ℚ) : ℚ :=
  (r._compressed_items.map (fun p => linTerm p.1 target * (p.2 : ℚ))).sum

/-- The summand `abs((pos - target) * (pos - target - 1) / 2)` of
`arithmetic_progression_burn`, without the multiplicity factor. -/
def apTerm (v : ℤ) (target : ℤ) : ℚ :=
  |((v : ℚ) - target) * ((v : ℚ) - target - 1) / 2|

/-- `RandomList.arithmetic_progression_burn(target)`: sum of
`abs((pos - target) * (pos - target - 1) / 2) * count` over the compressed
dictionary. -/
def RandomList.arithmetic_progression_burn (r : RandomList) (target : ℤ) : ℚ :=
  (r._compressed_items.map (fun p => apTerm p.1 target * (p.2 : ℚ))).sum

/-- `RandomList.minimum_burn(func)`: the minimum of `func j` over
`j in range(lower_bound, upper_bound)` (upper bound exclusive); Python's
`min` raises `ValueError` on an empty sequence, modelled by `Option.none`
(`List.min?` of the empty list). -/
def RandomList.minimum_burn (r : RandomList) (func : ℤ → ℚ) : Option ℚ :=
  ((List.range (r.upper_bound - r.lower_bound).toNat).map
    (fun (i : ℕ) => func (r.lower_bound + (i : ℤ)))).min?

/-- `statistics.mean` on a list of integers (exact value; junk `0` on the
empty list, where Python raises `StatisticsError`). -/
def pyMean (l : List ℤ) : ℚ := (l.sum : ℚ) / l.length

/-- Python's built-in `round` on an exact rational: round half to even. -/
def pyRound (q : ℚ) : ℤ :=
  if q - ⌊q⌋ < 1 / 2 then ⌊q⌋
  else if 1 / 2 < q - ⌊q⌋ then ⌊q⌋ + 1
  else if 2 ∣ ⌊q⌋ then ⌊q⌋ else ⌊q⌋ + 1

/-- `RandomList.mean()`: `round(mean(self._items) - 1 / 2)`. -/
def RandomList.mean (r : RandomList) : ℤ := pyRound (pyMean r._items - 1 / 2)

/-- Median selection on already sorted data: the middle element for odd
length, the average of the two middle elements for even length (junk `0` on
the empty list, where Python raises `StatisticsError`). -/
def medianOfSorted (s : List ℤ) : ℚ :=
  if s.length % 2 = 1 then ((s.getD (s.length / 2) 0 : ℤ) : ℚ)
  else (((s.getD (s.length / 2 - 1) 0 : ℤ) : ℚ) + ((s.getD (s.length / 2) 0 : ℤ) : ℚ)) / 2

/-- `statistics.median` on a list of integers: sort the data, then take the
middle element (odd length) or the average of the two middle ones (even
length). -/
def pyMedian (l : List ℤ) : ℚ := medianOfSorted (List.insertionSort (· ≤ ·) l)

/-- `RandomList.median()`: `statistics.median(self._items)`. -/
def RandomList.median (r : RandomList) : ℚ := pyMedian r._items

/-- Reference semantics of `linear_fuel_burn` over the raw element list
(sum of `abs(v - target)` over every stored element, duplicates included). -/
def linearRaw (l : List ℤ) (target : ℚ) : ℚ :=
  (l.map (fun v => linTerm v target)).sum

/-- Reference semantics of `arithmetic_progression_burn` over the raw
element list. -/
def apRaw (l : List ℤ) (target : ℤ) : ℚ :=
  (l.map (fun v => apTerm v target)).sum

/-- Modelled from the spec: the triangular cost `d * (d + 1) / 2` of moving
`d` discrete steps (`1 + 2 + ... + d`). -/
def triFuel (d : ℕ) : ℚ := (d : ℚ) * ((d : ℚ) + 1) / 2

/-- The operations the driver loop invokes on a constructed sample. -/
inductive SampleOp where
  | linearCost (target : ℚ)
  | triangularCost (target : ℤ)
  | medianStat
  | meanStat
  | bruteLinearMin
  | bruteTriangularMin

/-- Calling one operation on the state.  Every method body
(`linear_fuel_burn`, `arithmetic_progression_burn`, `median`, `mean`,
`minimum_burn`) only reads `self` — no assignment to any field occurs — so
the state coming out of a call is the state that went in, and the returned
value is a function of that state alone. -/
def runOp (r : RandomList) : SampleOp → Option ℚ × RandomList
  | .linearCost t => (some (r.linear_fuel_burn t), r)
  | .triangularCost t => (some (r.arithmetic_progression_burn t), r)
  | .medianStat => (some r.median, r)
  | .meanStat => (some ((r.mean : ℚ)), r)
  | .bruteLinearMin => (r.minimum_burn (fun j => r.linear_fuel_burn (j : ℚ)), r)
  | .bruteTriangularMin => (r.minimum_burn r.arithmetic_progression_burn, r)

/-! ### Sums over the compressed dictionary versus sums over the raw items -/

lemma compressedInsert_weight_sum (w : ℤ → ℚ) (m : List (ℤ × ℕ)) (v : ℤ) :
    ((compressedInsert m v).map (fun p => w p.1 * (p.2 : ℚ))).sum
      = (m.map (fun p => w p.1 * (p.2 : ℚ))).sum + w v := by
  induction m with
  | nil => simp [compressedInsert]
  | cons p rest ih =>
      obtain ⟨k, c⟩ := p
      by_cases h : k = v
      · subst h
        rw [show compressedInsert ((k, c) :: rest) k = (k, c + 1) :: rest by
          simp [compressedInsert]]
        simp only [List.map_cons, List.sum_cons]
        push_cast
        ring
      · rw [show compressedInsert ((k, c) :: rest) v = (k, c) :: compressedInsert rest v by
          simp [compressedInsert, h]]
        simp only [List.map_cons, List.sum_cons, ih]
        ring

lemma foldl_compressedInsert_weight_sum (w : ℤ → ℚ) (l : List ℤ) (m : List (ℤ × ℕ)) :
    ((l.foldl compressedInsert m).map (fun p => w p.1 * (p.2 : ℚ))).sum
      = (m.map (fun p => w p.1 * (p.2 : ℚ))).sum + (l.map w).sum := by
  induction l generalizing m with
  | nil => simp
  | cons v rest ih =>
      simp only [List.foldl_cons, ih, compressedInsert_weight_sum, List.map_cons,
        List.sum_cons]
      ring

/-- `linear_fuel_burn` over the compressed dictionary equals the sum of
`abs(v - target)` over the raw stored elements. -/
lemma linear_burn_eq_raw (items : List ℤ) (lo hi : ℤ) (target : ℚ) :
    (randomListMk items lo hi).linear_fuel_burn target = linearRaw items target := by
  have h := foldl_compressedInsert_weight_sum (fun v => linTerm v target) items []
  simpa [randomListMk, RandomList.linear_fuel_burn, linearRaw] using h

/-- `arithmetic_progression_burn` over the compressed dictionary equals the
sum of the per-element triangular expression over the raw stored elements. -/
lemma ap_burn_eq_raw (items : List ℤ) (lo hi : ℤ) (target : ℤ) :
    (randomListMk items lo hi).arithmetic_progression_burn target = apRaw items target := by
  have h := foldl_compressedInsert_weight_sum (fun v => apTerm v target) items []
  simpa [randomListMk, RandomList.arithmetic_progression_burn, apRaw] using h

lemma compressedInsert_count_sum (m : List (ℤ × ℕ)) (v : ℤ) :
    ((compressedInsert m v).map (fun p => p.2)).sum
      = (m.map (fun p => p.2)).sum + 1 := by
  induction m with
  | nil => simp [compressedInsert]
  | cons p rest ih =>
      obtain ⟨k, c⟩ := p
      by_cases h : k = v
      · subst h
        rw [show compressedInsert ((k, c) :: rest) k = (k, c + 1) :: rest by
          simp [compressedInsert]]
        simp only [List.map_cons, List.sum_cons]
        omega
      · rw [show compressedInsert ((k, c) :: rest) v = (k, c) :: compressedInsert rest v by
          simp [compressedInsert, h]]
        simp only [List.map_cons, List.sum_cons, ih]
        omega

lemma foldl_compressedInsert_count_sum (l : List ℤ) (m : List (ℤ × ℕ)) :
    ((l.foldl compressedInsert m).map (fun p => p.2)).sum
      = (m.map (fun p => p.2)).sum + l.length := by
  induction l generalizing m with
  | nil => simp
  | cons v rest ih =>
      simp only [List.foldl_cons, ih, compressedInsert_count_sum, List.length_cons]
      omega

lemma compressedInsert_key_mem {m : List (ℤ × ℕ)} {v : ℤ} {p : ℤ × ℕ}
    (hp : p ∈ compressedInsert m v) : p.1 = v ∨ p.1 ∈ m.map Prod.fst := by
  induction m with
  | nil =>
      have h1 : p = (v, 1) := by simpa [compressedInsert] using hp
      left; rw [h1]
  | cons q rest ih =>
      obtain ⟨k, c⟩ := q
      by_cases h : k = v
      · subst h
        rw [show compressedInsert ((k, c) :: rest) k = (k, c + 1) :: rest by
          simp [compressedInsert]] at hp
        rcases List.mem_cons.1 hp with h1 | h1
        · left; rw [h1]
        · right; rw [List.map_cons]
          exact List.mem_cons_of_mem _ (List.mem_map_of_mem Prod.fst h1)
      · rw [show compressedInsert ((k, c) :: rest) v = (k, c) :: compressedInsert rest v by
          simp [compressedInsert, h]] at hp
        rcases List.mem_cons.1 hp with h1 | h1
        · right; rw [h1, List.map_cons]; exact List.mem_cons_self _ _
        · rcases ih h1 with h2 | h2
          · exact Or.inl h2
          · right; rw [List.map_cons]; exact List.mem_cons_of_mem _ h2

lemma compressedInsert_keys_subset {m : List (ℤ × ℕ)} {v k : ℤ}
    (hk : k ∈ (compressedInsert m v).map Prod.fst) : k = v ∨ k ∈ m.map Prod.fst := by
  obtain ⟨p, hp, rfl⟩ := List.mem_map.1 hk
  exact compressedInsert_key_mem hp

lemma foldl_compressedInsert_key_mem {l : List ℤ} {m : List (ℤ × ℕ)} {p : ℤ × ℕ}
    (hp : p ∈ l.foldl compressedInsert m) : p.1 ∈ l ∨ p.1 ∈ m.map Prod.fst := by
  induction l generalizing m with
  | nil => simp at hp; right; exact List.mem_map_of_mem Prod.fst hp
  | cons v rest ih =>
      simp only [List.foldl_cons] at hp
      rcases ih hp with h1 | h1
      · left; exact List.mem_cons_of_mem v h1
      · rcases compressedInsert_keys_subset h1 with h2 | h2
        · left; rw [h2]; exact List.mem_cons_self v rest
        · right; exact h2

/-! ### Characterization of `List.min?` over rationals -/

lemma foldl_min_le (l : List ℚ) (a : ℚ) :
    l.foldl min a ≤ a ∧ ∀ x ∈ l, l.foldl min a ≤ x := by
  induction l generalizing a with
  | nil => simp
  | cons x xs ih =>
      refine ⟨?_, ?_⟩
      · exact le_trans ((ih (min a x)).1) (min_le_left a x)
      · intro y hy
        rcases List.mem_cons.1 hy with rfl | hy
        · exact le_trans ((ih (min a y)).1) (min_le_right a y)
        · exact (ih (min a x)).2 y hy

lemma foldl_min_mem (l : List ℚ) (a : ℚ) :
    l.foldl min a = a ∨ l.foldl min a ∈ l := by
  induction l generalizing a with
  | nil => simp
  | cons x xs ih =>
      rcases ih (min a x) with h | h
      · rcases min_choice a x with h2 | h2
        · left; simp only [List.foldl_cons]; rw [h, h2]
        · right; simp only [List.foldl_cons]; rw [h, h2]; exact List.mem_cons_self x xs
      · right; simp only [List.foldl_cons]; exact List.mem_cons_of_mem x h

lemma min?_eq_some_of_mem_of_le {l : List ℚ} {m : ℚ}
    (hm : m ∈ l) (hle : ∀ x ∈ l, m ≤ x) : l.min? = some m := by
  cases l with
  | nil => simp at hm
  | cons a as =>
      have hf := foldl_min_le as a
      have hmem := foldl_min_mem as a
      have h1 : as.foldl min a ≤ m := by
        rcases List.mem_cons.1 hm with rfl | hm2
        · exact hf.1
        · exact hf.2 m hm2
      have h2 : m ≤ as.foldl min a := by
        rcases hmem with h | h
        · rw [h]; exact hle a (List.mem_cons_self a as)
        · exact hle _ (List.mem_cons_of_mem a h)
      simp [List.min?]
      exact le_antisymm h1 h2

lemma min?_spec {l : List ℚ} (h : l ≠ []) :
    ∃ m, l.min? = some m ∧ m ∈ l ∧ ∀ x ∈ l, m ≤ x := by
  cases l with
  | nil => exact absurd rfl h
  | cons a as =>
      refine ⟨as.foldl min a, by simp [List.min?], ?_, ?_⟩
      · rcases foldl_min_mem as a with h1 | h1
        · rw [h1]; exact List.mem_cons_self a as
        · exact List.mem_cons_of_mem a h1
      · intro x hx
        rcases List.mem_cons.1 hx with h1 | h1
        · rw [h1]; exact (foldl_min_le as a).1
        · exact (foldl_min_le as a).2 x h1

/-! ### The per-element triangular expression -/

lemma int_mul_pred_nonneg (n : ℤ) : 0 ≤ n * (n - 1) := by
  rcases le_or_lt n 0 with h | h
  · nlinarith
  · nlinarith

/-- The absolute value in `arithmetic_progression_burn` never fires for
integer targets: the raw expression `(v - t) * (v - t - 1) / 2` is already
non-negative, being half a product of consecutive integers. -/
lemma apTerm_eq (v t : ℤ) :
    apTerm v t = (((v - t) * (v - t - 1) : ℤ) : ℚ) / 2 := by
  unfold apTerm
  have h1 : ((v : ℚ) - t) * ((v : ℚ) - t - 1) = (((v - t) * (v - t - 1) : ℤ) : ℚ) := by
    push_cast; ring
  have h2 : (0 : ℚ) ≤ (((v - t) * (v - t - 1) : ℤ) : ℚ) := by
    exact_mod_cast int_mul_pred_nonneg (v - t)
  rw [h1, abs_div, abs_of_nonneg h2]
  norm_num

lemma apTerm_zero_iff (v t : ℤ) : apTerm v t = 0 ↔ v = t ∨ v = t + 1 := by
  rw [apTerm_eq]
  constructor
  · intro h
    have h2 : (((v - t) * (v - t - 1) : ℤ) : ℚ) = 0 := by linarith
    have h3 : ((v - t) * (v - t - 1) : ℤ) = 0 := by exact_mod_cast h2
    rcases mul_eq_zero.1 h3 with h4 | h4
    · left; omega
    · right; omega
  · intro h
    have h2 : ((v - t) * (v - t - 1) : ℤ) = 0 := by
      rcases h with h | h <;> subst h <;> ring
    rw [h2]
    norm_num

/-! ### Claim theorems: per-element triangular cost (C3, C10) -/

/-- C3 counterexample: the implemented per-element cost at value `1`,
target `0` is `abs(1 * 0 / 2) = 0`, not the triangular number
`T(abs(1 - 0)) = 1` of the distance. -/
theorem C3_counterexample : apTerm 1 0 ≠ triFuel (Int.natAbs (1 - 0)) := by
  rw [apTerm_eq]
  norm_num [triFuel]

/-- C3 amended: the implemented per-element cost, weighted by multiplicity
`c`, equals `c * T(v - t - 1)` for a value above the target and
`c * T(t - v)` for a value at or below it — the triangular number of the
distance shifted down by one when moving leftwards, not `c * T(abs (v - t))`
in both directions. -/
theorem C3_triangular_contribution (v t : ℤ) (c : ℕ) :
    apTerm v t * (c : ℚ)
      = (if t < v then triFuel (v - t - 1).toNat else triFuel (t - v).toNat) * (c : ℚ) := by
  rw [apTerm_eq]
  by_cases h : t < v
  · rw [if_pos h]
    have h1 : ((v - t - 1).toNat : ℚ) = (v : ℚ) - t - 1 := by
      have h2 : ((v - t - 1).toNat : ℤ) = v - t - 1 := Int.toNat_of_nonneg (by omega)
      exact_mod_cast h2
    unfold triFuel
    rw [h1]
    push_cast
    ring
  · rw [if_neg h]
    have h1 : ((t - v).toNat : ℚ) = (t : ℚ) - v := by
      have h2 : ((t - v).toNat : ℤ) = t - v := Int.toNat_of_nonneg (by omega)
      exact_mod_cast h2
    unfold triFuel
    rw [h1]
    push_cast
    ring

/-- C10: a stored value `v` contributes zero to the triangular cost at
target `t` exactly when `v = t` or `v = t + 1`; a sample of elements all
equal to `t + 1` has total triangular cost `0`, while a value one step
below the target costs `1`. -/
theorem C10_one_step_above_is_free (v t lo hi : ℤ) (n : ℕ) :
    (apTerm v t = 0 ↔ v = t ∨ v = t + 1)
    ∧ (randomListMk (List.replicate n (t + 1)) lo hi).arithmetic_progression_burn t = 0
    ∧ apTerm (t + 1) t = 0 ∧ apTerm (t - 1) t = 1 := by
  refine ⟨apTerm_zero_iff v t, ?_, ?_, ?_⟩
  · rw [ap_burn_eq_raw]
    unfold apRaw
    have ht : apTerm (t + 1) t = 0 := (apTerm_zero_iff (t + 1) t).2 (Or.inr rfl)
    simp [List.map_replicate, ht]
  · exact (apTerm_zero_iff (t + 1) t).2 (Or.inr rfl)
  · rw [apTerm_eq]
    rw [show (t - 1 - t) * (t - 1 - t - 1) = (2 : ℤ) by ring]
    norm_num

/-! ### Claim theorems: construction (C4, C6) -/

/-- C4 counterexample: construction with `count = -1` succeeds (the Python
loop body never runs), refuting "fails if `count < 0`"; and construction
with `count = 1`, `lo = 5 > 0 = hi` fails (`randint` raises `ValueError`),
refuting "never fails for `lo > hi`". -/
theorem C4_counterexample :
    (randomListInit (-1) 0 10 (fun _ => 0)).isSome = true
      ∧ (randomListInit 1 5 0 (fun _ => 0)).isSome = false := by
  constructor <;> rfl

/-- C4 amended: construction succeeds iff `count ≤ 0` (empty loop) or
`lo ≤ hi` (every `randint` call has a non-empty range); on success the items
are the `max count 0` draws in generation order and the bounds are stored
unchanged. -/
theorem C4_construct_success (items_c lo hi : ℤ) (draws : ℕ → ℤ) :
    ((randomListInit items_c lo hi draws).isSome = true ↔ (items_c ≤ 0 ∨ lo ≤ hi))
    ∧ ∀ r, randomListInit items_c lo hi draws = some r →
        r._items = (List.range items_c.toNat).map draws
          ∧ r.lower_bound = lo ∧ r.upper_bound = hi := by
  constructor
  · unfold randomListInit
    by_cases h : 1 ≤ items_c ∧ hi < lo
    · rw [if_pos h]; simp; omega
    · rw [if_neg h]; simp; omega
  · intro r hr
    unfold randomListInit at hr
    by_cases h : 1 ≤ items_c ∧ hi < lo
    · rw [if_pos h] at hr; exact absurd hr (by simp)
    · rw [if_neg h] at hr
      have h2 := Option.some.inj hr
      rw [← h2]
      exact ⟨rfl, rfl, rfl⟩

theorem C4_witness :
    ((randomListInit 2 0 5 (fun _ => 3)).isSome = true ↔ ((2 : ℤ) ≤ 0 ∨ (0 : ℤ) ≤ 5))
    ∧ ((randomListMk [3, 3] 0 5)._items = (List.range (2 : ℤ).toNat).map (fun _ => (3 : ℤ))
        ∧ (randomListMk [3, 3] 0 5).lower_bound = 0
        ∧ (randomListMk [3, 3] 0 5).upper_bound = 5) :=
  ⟨(C4_construct_success 2 0 5 (fun _ => 3)).1,
   (C4_construct_success 2 0 5 (fun _ => 3)).2 (randomListMk [3, 3] 0 5) (by decide)⟩

/-- C6: after a successful construction with `count ≥ 0` and `lo ≤ hi` from
in-range draws, the compressed counts sum to the number of stored items and
every key lies within the inclusive bounds.  (All later operations are pure
reads, so the invariant persists: see `C9_operations_pure`.) -/
theorem C6_compressed_invariant (items_c lo hi : ℤ) (draws : ℕ → ℤ) (r : RandomList)
    (hc : 0 ≤ items_c) (hb : lo ≤ hi)
    (hdraws : ∀ i, lo ≤ draws i ∧ draws i ≤ hi)
    (hr : randomListInit items_c lo hi draws = some r) :
    ((r._compressed_items.map (fun p => p.2)).sum = r._items.length)
    ∧ ∀ p ∈ r._compressed_items, r.lower_bound ≤ p.1 ∧ p.1 ≤ r.upper_bound := by
  have hne : ¬ (1 ≤ items_c ∧ hi < lo) := by omega
  unfold randomListInit at hr
  rw [if_neg hne] at hr
  have h2 := Option.some.inj hr
  rw [← h2]
  constructor
  · have h3 := foldl_compressedInsert_count_sum ((List.range items_c.toNat).map draws) []
    simpa [randomListMk] using h3
  · intro p hp
    have hp2 : p ∈ ((List.range items_c.toNat).map draws).foldl compressedInsert [] := hp
    rcases foldl_compressedInsert_key_mem hp2 with hm | hm
    · obtain ⟨i, _, hieq⟩ := List.mem_map.1 hm
      have h4 := hdraws i
      constructor
      · show lo ≤ p.1
        rw [← hieq]; exact h4.1
      · show p.1 ≤ hi
        rw [← hieq]; exact h4.2
    · simp at hm

theorem C6_witness :
    (((randomListMk [3, 3] 0 5)._compressed_items.map (fun p => p.2)).sum
        = (randomListMk [3, 3] 0 5)._items.length)
    ∧ ∀ p ∈ (randomListMk [3, 3] 0 5)._compressed_items,
        (randomListMk [3, 3] 0 5).lower_bound ≤ p.1
          ∧ p.1 ≤ (randomListMk [3, 3] 0 5).upper_bound :=
  C6_compressed_invariant 2 0 5 (fun _ => 3) (randomListMk [3, 3] 0 5)
    (by norm_num) (by norm_num) (fun _ => ⟨by norm_num, by norm_num⟩) (by decide)

/-! ### Claim theorems: brute force minimum (C5) -/

/-- C5: `minimum_burn` fails exactly on an empty scan domain
(`lower_bound ≥ upper_bound`), and otherwise returns the minimum cost value
over the integers of `[lower_bound, upper_bound)` (not a minimizing
argument). -/
theorem C5_minimum_burn_spec (r : RandomList) (func : ℤ → ℚ) :
    (r.upper_bound ≤ r.lower_bound → r.minimum_burn func = none)
    ∧ (r.lower_bound < r.upper_bound →
        ∃ j, r.lower_bound ≤ j ∧ j < r.upper_bound
          ∧ r.minimum_burn func = some (func j)
          ∧ ∀ x, r.lower_bound ≤ x → x < r.upper_bound → func j ≤ func x) := by
  constructor
  · intro h
    unfold RandomList.minimum_burn
    rw [show (r.upper_bound - r.lower_bound).toNat = 0 by omega]
    rfl
  · intro h
    have hNpos : 0 < (r.upper_bound - r.lower_bound).toNat := by omega
    have hLlen : ((List.range (r.upper_bound - r.lower_bound).toNat).map
        (fun (i : ℕ) => func (r.lower_bound + (i : ℤ)))).length
          = (r.upper_bound - r.lower_bound).toNat := by
      rw [List.length_map, List.length_range]
    have hLne : (List.range (r.upper_bound - r.lower_bound).toNat).map
        (fun (i : ℕ) => func (r.lower_bound + (i : ℤ))) ≠ [] := by
      intro hcon
      rw [hcon] at hLlen
      simp at hLlen
      omega
    obtain ⟨m, hmin, hmem, hle⟩ := min?_spec hLne
    obtain ⟨i, hirange, hieq⟩ := List.mem_map.1 hmem
    have hiN := List.mem_range.1 hirange
    refine ⟨r.lower_bound + i, by omega, by omega, ?_, ?_⟩
    · unfold RandomList.minimum_burn
      rw [hmin, hieq]
    · intro x hx1 hx2
      have hxmem : func x ∈ (List.range (r.upper_bound - r.lower_bound).toNat).map
          (fun (i : ℕ) => func (r.lower_bound + (i : ℤ))) := by
        rw [List.mem_map]
        refine ⟨(x - r.lower_bound).toNat, List.mem_range.2 (by omega), ?_⟩
        congr 1
        omega
      rw [hieq]
      exact hle _ hxmem

theorem C5_witness :
    ((randomListMk [] 3 0).minimum_burn (fun j => (j : ℚ)) = none)
    ∧ ∃ j, (0 : ℤ) ≤ j ∧ j < 3
        ∧ (randomListMk [] 0 3).minimum_burn (fun j => (j : ℚ)) = some ((j : ℚ))
        ∧ ∀ x, (0 : ℤ) ≤ x → x < 3 → (j : ℚ) ≤ (x : ℚ) :=
  ⟨(C5_minimum_burn_spec (randomListMk [] 3 0) (fun j => (j : ℚ))).1 (by decide),
   (C5_minimum_burn_spec (randomListMk [] 0 3) (fun j => (j : ℚ))).2 (by decide)⟩

/-! ### Claim theorems: refinement, non-negativity, purity (C7, C8, C9) -/

/-- C7: for every constructed sample, the linear cost evaluated over the
compressed value-to-count mapping equals the sum of `abs(v - target)` over
every raw stored element, for every target. -/
theorem C7_compressed_eq_raw (items : List ℤ) (lo hi : ℤ) (target : ℚ) :
    (randomListMk items lo hi).linear_fuel_burn target = linearRaw items target :=
  linear_burn_eq_raw items lo hi target

/-- C8: both cost functions are non-negative at every target, including
targets outside the generation bounds. -/
theorem C8_costs_nonneg (r : RandomList) (t : ℚ) (u : ℤ) :
    0 ≤ r.linear_fuel_burn t ∧ 0 ≤ r.arithmetic_progression_burn u := by
  constructor
  · apply List.sum_nonneg
    intro x hx
    obtain ⟨p, _, h⟩ := List.mem_map.1 hx
    rw [← h]
    exact mul_nonneg (abs_nonneg _) (by positivity)
  · apply List.sum_nonneg
    intro x hx
    obtain ⟨p, _, h⟩ := List.mem_map.1 hx
    rw [← h]
    exact mul_nonneg (abs_nonneg _) (by positivity)

/-- C9: every cost and statistic operation is a pure read: it leaves the
state unchanged, and repeating it on the resulting state returns the same
value. -/
theorem C9_operations_pure (r : RandomList) (op : SampleOp) :
    (runOp r op).2 = r ∧ (runOp (runOp r op).2 op).1 = (runOp r op).1 := by
  cases op <;> exact ⟨rfl, rfl⟩

/-! ### The brute-force scan attains a pointwise lower bound -/

lemma minimum_burn_eq_of_min {r : RandomList} {func : ℤ → ℚ} {j : ℤ}
    (hj1 : r.lower_bound ≤ j) (hj2 : j < r.upper_bound)
    (hmin : ∀ x : ℤ, r.lower_bound ≤ x → x < r.upper_bound → func j ≤ func x) :
    r.minimum_burn func = some (func j) := by
  unfold RandomList.minimum_burn
  apply min?_eq_some_of_mem_of_le
  · rw [List.mem_map]
    refine ⟨(j - r.lower_bound).toNat, List.mem_range.2 (by omega), ?_⟩
    congr 1
    omega
  · intro y hy
    obtain ⟨i, hi2, hieq⟩ := List.mem_map.1 hy
    have hi3 := List.mem_range.1 hi2
    rw [← hieq]
    exact hmin _ (by omega) (by omega)

/-! ### Quadratic structure of the triangular cost (towards C2) -/

lemma apRaw_cons (v : ℤ) (l : List ℤ) (t : ℤ) :
    apRaw (v :: l) t = apTerm v t + apRaw l t := by
  simp [apRaw]

/-- Exact finite-difference identity for the triangular cost at two integer
targets: the absolute values never fire, so the cost is the quadratic
`(x - m) * ((x + m + 1) * n - 2 * S) / 2` away from its value at `m`. -/
lemma apRaw_diff (l : List ℤ) (x m : ℤ) :
    apRaw l x = apRaw l m
      + ((x : ℚ) - m) * (((x : ℚ) + m + 1) * l.length - 2 * (l.sum : ℚ)) / 2 := by
  induction l with
  | nil => simp [apRaw]
  | cons v rest ih =>
      rw [apRaw_cons, apRaw_cons, ih, apTerm_eq, apTerm_eq, List.sum_cons, List.length_cons]
      push_cast
      ring

/-- Any rounding of `q` to a neighbouring integer stays within a half unit
of `q`; in particular Python's banker rounding does. -/
lemma pyRound_bounds (q : ℚ) : q - 1 / 2 ≤ (pyRound q : ℚ) ∧ (pyRound q : ℚ) ≤ q + 1 / 2 := by
  unfold pyRound
  have h1 : (⌊q⌋ : ℚ) ≤ q := Int.floor_le q
  have h2 : q < ⌊q⌋ + 1 := Int.lt_floor_add_one q
  by_cases hc1 : q - ⌊q⌋ < 1 / 2
  · rw [if_pos hc1]; constructor <;> linarith
  · rw [if_neg hc1]
    by_cases hc2 : 1 / 2 < q - ⌊q⌋
    · rw [if_pos hc2]; constructor <;> push_cast <;> linarith
    · rw [if_neg hc2]
      by_cases hc3 : 2 ∣ ⌊q⌋
      · rw [if_pos hc3]; constructor <;> linarith
      · rw [if_neg hc3]; constructor <;> push_cast <;> linarith

lemma mul_length_le_sum {l : List ℤ} {lo : ℤ} (h : ∀ v ∈ l, lo ≤ v) :
    lo * l.length ≤ l.sum := by
  induction l with
  | nil => simp
  | cons v rest ih =>
      rw [List.sum_cons, List.length_cons]
      have h1 := h v (List.mem_cons_self v rest)
      have h2 := ih (fun x hx => h x (List.mem_cons_of_mem v hx))
      push_cast
      nlinarith

lemma sum_le_mul_length {l : List ℤ} {hi : ℤ} (h : ∀ v ∈ l, v ≤ hi) :
    l.sum ≤ hi * l.length := by
  induction l with
  | nil => simp
  | cons v rest ih =>
      rw [List.sum_cons, List.length_cons]
      have h1 := h v (List.mem_cons_self v rest)
      have h2 := ih (fun x hx => h x (List.mem_cons_of_mem v hx))
      push_cast
      nlinarith

/-- Sign analysis of the finite-difference factor: if `m` is within half a
unit of the real minimizer `s / n - 1 / 2`, the quadratic increment is
non-negative at every integer `x`. -/
lemma quad_step_nonneg (x m n s : ℚ) (hn : 0 < n)
    (h1 : m * n ≤ s) (h2 : s ≤ (m + 1) * n)
    (hx : x = m ∨ x ≤ m - 1 ∨ m + 1 ≤ x) :
    0 ≤ (x - m) * ((x + m + 1) * n - 2 * s) / 2 := by
  rcases hx with h | h | h
  · rw [h, sub_self, zero_mul, zero_div]
  · have hmul : (x + m + 1) * n ≤ 2 * m * n :=
      mul_le_mul_of_nonneg_right (by linarith) hn.le
    have hf : (x + m + 1) * n - 2 * s ≤ 0 := by nlinarith
    have hp : 0 ≤ (m - x) * (2 * s - (x + m + 1) * n) :=
      mul_nonneg (by linarith) (by linarith)
    nlinarith
  · have hmul : 2 * (m + 1) * n ≤ (x + m + 1) * n :=
      mul_le_mul_of_nonneg_right (by linarith) hn.le
    have hf : 0 ≤ (x + m + 1) * n - 2 * s := by nlinarith
    have hp : 0 ≤ (x - m) * ((x + m + 1) * n - 2 * s) :=
      mul_nonneg (by linarith) hf
    linarith

/-! ### Claim theorem: the mean-adjusted statistic minimizes the triangular cost (C2) -/

/-- C2: for a non-empty sample drawn from `[lo, hi]` with a non-empty scan
domain, the triangular cost at `round(mean - 1/2)` equals the brute-force
minimum over `[lo, hi)`.  This holds even when the rounded statistic falls
at `lo - 1` or `hi`, just outside the scan domain: there the cost ties with
the cost at the nearest scanned point. -/
theorem C2_mean_minimizes_triangular (items : List ℤ) (lo hi : ℤ)
    (hne : items ≠ []) (hin : ∀ v ∈ items, lo ≤ v ∧ v ≤ hi) (hlt : lo < hi) :
    (randomListMk items lo hi).minimum_burn
        ((randomListMk items lo hi).arithmetic_progression_burn)
      = some ((randomListMk items lo hi).arithmetic_progression_burn
          ((randomListMk items lo hi).mean)) := by
  set m : ℤ := (randomListMk items lo hi).mean with hm
  have hnlen : 0 < items.length := List.length_pos.2 hne
  have hn : (0 : ℚ) < (items.length : ℚ) := by exact_mod_cast hnlen
  have hmq : m = pyRound (pyMean items - 1 / 2) := hm
  have hq := pyRound_bounds (pyMean items - 1 / 2)
  have hq1 : pyMean items - 1 ≤ (m : ℚ) := by rw [hmq]; linarith [hq.1]
  have hq2 : (m : ℚ) ≤ pyMean items := by rw [hmq]; linarith [hq.2]
  have hpm : pyMean items = (items.sum : ℚ) / (items.length : ℚ) := rfl
  have hS2 : (m : ℚ) * (items.length : ℚ) ≤ (items.sum : ℚ) := by
    rw [hpm] at hq2
    exact (le_div_iff hn).1 hq2
  have hS1 : (items.sum : ℚ) ≤ ((m : ℚ) + 1) * (items.length : ℚ) := by
    have h3 : (items.sum : ℚ) / (items.length : ℚ) ≤ (m : ℚ) + 1 := by
      rw [hpm] at hq1
      linarith
    exact (div_le_iff hn).1 h3
  have hlo_sum : (lo : ℚ) * (items.length : ℚ) ≤ (items.sum : ℚ) := by
    have h3 := mul_length_le_sum (fun v hv => (hin v hv).1)
    exact_mod_cast h3
  have hhi_sum : (items.sum : ℚ) ≤ (hi : ℚ) * (items.length : ℚ) := by
    have h3 := sum_le_mul_length (fun v hv => (hin v hv).2)
    exact_mod_cast h3
  have hlo_div : (lo : ℚ) ≤ (items.sum : ℚ) / (items.length : ℚ) :=
    (le_div_iff hn).2 hlo_sum
  have hhi_div : (items.sum : ℚ) / (items.length : ℚ) ≤ (hi : ℚ) :=
    (div_le_iff hn).2 hhi_sum
  have hmloQ : (lo : ℚ) - 1 ≤ (m : ℚ) := by rw [hpm] at hq1; linarith
  have hmlo : lo - 1 ≤ m := by exact_mod_cast hmloQ
  have hmhiQ : (m : ℚ) ≤ (hi : ℚ) := by rw [hpm] at hq2; linarith
  have hmhi : m ≤ hi := by exact_mod_cast hmhiQ
  have hburn : ∀ x : ℤ,
      (randomListMk items lo hi).arithmetic_progression_burn x = apRaw items x :=
    fun x => ap_burn_eq_raw items lo hi x
  have hglobal : ∀ x : ℤ, apRaw items m ≤ apRaw items x := by
    intro x
    rw [apRaw_diff items x m]
    have hx : (x : ℚ) = (m : ℚ) ∨ (x : ℚ) ≤ (m : ℚ) - 1 ∨ (m : ℚ) + 1 ≤ (x : ℚ) := by
      rcases lt_trichotomy x m with h | h | h
      · right; left
        have h4 : x ≤ m - 1 := by omega
        have h5 : (x : ℚ) ≤ ((m - 1 : ℤ) : ℚ) := by exact_mod_cast h4
        push_cast at h5
        linarith
      · left; exact_mod_cast h
      · right; right
        have h4 : m + 1 ≤ x := by omega
        have h5 : ((m + 1 : ℤ) : ℚ) ≤ (x : ℚ) := by exact_mod_cast h4
        push_cast at h5
        linarith
    have h6 := quad_step_nonneg (x : ℚ) (m : ℚ) (items.length : ℚ) (items.sum : ℚ)
      hn hS2 hS1 hx
    linarith
  have hj : ∃ j : ℤ, lo ≤ j ∧ j < hi ∧ apRaw items j = apRaw items m := by
    rcases lt_or_le m lo with hml | hml
    · have hm1 : m = lo - 1 := by omega
      have hcastm : (m : ℚ) = (lo : ℚ) - 1 := by
        rw [hm1]; push_cast; ring
      refine ⟨lo, le_refl lo, hlt, ?_⟩
      have hkey : apRaw items lo
          = apRaw items m + ((lo : ℚ) * (items.length : ℚ) - (items.sum : ℚ)) := by
        rw [apRaw_diff items lo m, hcastm]; ring
      have hle1 : apRaw items lo ≤ apRaw items m := by
        rw [hkey]; linarith
      exact le_antisymm hle1 (hglobal lo)
    · rcases lt_or_le (hi - 1) m with hmh | hmh
      · have hm1 : m = hi := by omega
        have hcastm : (m : ℚ) = (hi : ℚ) := by exact_mod_cast hm1
        refine ⟨hi - 1, by omega, by omega, ?_⟩
        have hkey : apRaw items (hi - 1)
            = apRaw items m + ((items.sum : ℚ) - (hi : ℚ) * (items.length : ℚ)) := by
          rw [apRaw_diff items (hi - 1) m, hcastm]; push_cast; ring
        have hle1 : apRaw items (hi - 1) ≤ apRaw items m := by
          rw [hkey]; linarith
        exact le_antisymm hle1 (hglobal (hi - 1))
      · exact ⟨m, by omega, by omega, rfl⟩
  obtain ⟨j, hj1, hj2, hjeq⟩ := hj
  have hmb : (randomListMk items lo hi).minimum_burn
      ((randomListMk items lo hi).arithmetic_progression_burn)
        = some ((randomListMk items lo hi).arithmetic_progression_burn j) := by
    apply minimum_burn_eq_of_min
    · exact hj1
    · exact hj2
    · intro x hx1 hx2
      rw [hburn, hburn, hjeq]
      exact hglobal x
  rw [hmb]
  congr 1
  rw [hburn j, hburn m, hjeq]

theorem C2_witness :
    (randomListMk [1, 2, 3] 0 5).minimum_burn
        ((randomListMk [1, 2, 3] 0 5).arithmetic_progression_burn)
      = some ((randomListMk [1, 2, 3] 0 5).arithmetic_progression_burn
          ((randomListMk [1, 2, 3] 0 5).mean)) :=
  C2_mean_minimizes_triangular [1, 2, 3] 0 5 (by decide)
    (by intro v hv; fin_cases hv <;> omega) (by decide)

/-! ### The median minimizes the linear cost (towards C1) -/

lemma linearRaw_cons (v : ℤ) (l : List ℤ) (t : ℚ) :
    linearRaw (v :: l) t = linTerm v t + linearRaw l t := by
  simp [linearRaw]

lemma linearRaw_append (l₁ l₂ : List ℤ) (t : ℚ) :
    linearRaw (l₁ ++ l₂) t = linearRaw l₁ t + linearRaw l₂ t := by
  simp [linearRaw]

lemma linearRaw_perm {l₁ l₂ : List ℤ} (h : l₁.Perm l₂) (t : ℚ) :
    linearRaw l₁ t = linearRaw l₂ t :=
  (h.map (fun v => linTerm v t)).sum_eq

/-- Index of the lower middle element of a sorted list (equal to the upper
one for odd lengths). -/
def sortedLowerMid (s : List ℤ) : ℤ := s.getD ((s.length - 1) / 2) 0

/-- Index of the upper middle element of a sorted list. -/
def sortedUpperMid (s : List ℤ) : ℤ := s.getD (s.length / 2) 0

lemma getD_mem_of_lt {l : List ℤ} {i : ℕ} (h : i < l.length) : l.getD i 0 ∈ l := by
  rw [List.getD_eq_getElem l 0 h]
  exact List.getElem_mem h

lemma sorted_getD_mono {s : List ℤ} (hs : s.Sorted (· ≤ ·)) {i j : ℕ}
    (hij : i ≤ j) (hj : j < s.length) : s.getD i 0 ≤ s.getD j 0 := by
  have hi : i < s.length := lt_of_le_of_lt hij hj
  rw [List.getD_eq_getElem s 0 hi, List.getD_eq_getElem s 0 hj]
  exact hs.rel_get_of_le (Fin.mk_le_mk.mpr hij)

lemma lowerMid_peel (a b : ℤ) (mid : List ℤ) (h : mid ≠ []) :
    sortedLowerMid (a :: (mid ++ [b])) = sortedLowerMid mid := by
  have hk : 1 ≤ mid.length := List.length_pos.2 h
  unfold sortedLowerMid
  have hlen : (a :: (mid ++ [b])).length = mid.length + 2 := by simp
  rw [hlen]
  rw [show (mid.length + 2 - 1) / 2 = (mid.length - 1) / 2 + 1 by omega]
  rw [List.getD_cons_succ]
  exact List.getD_append mid [b] 0 _ (by omega)

lemma upperMid_peel (a b : ℤ) (mid : List ℤ) (h : mid ≠ []) :
    sortedUpperMid (a :: (mid ++ [b])) = sortedUpperMid mid := by
  have hk : 1 ≤ mid.length := List.length_pos.2 h
  unfold sortedUpperMid
  have hlen : (a :: (mid ++ [b])).length = mid.length + 2 := by simp
  rw [hlen]
  rw [show (mid.length + 2) / 2 = mid.length / 2 + 1 by omega]
  rw [List.getD_cons_succ]
  exact List.getD_append mid [b] 0 _ (by omega)

/-- Pairing argument: on a sorted list, every point between the two middle
elements minimizes the total absolute deviation, globally over `ℚ`. -/
lemma sorted_between_min (n : ℕ) :
    ∀ s : List ℤ, s.length = n → s.Sorted (· ≤ ·) →
      ∀ t : ℚ, (sortedLowerMid s : ℚ) ≤ t → t ≤ (sortedUpperMid s : ℚ) →
        ∀ u : ℚ, linearRaw s t ≤ linearRaw s u := by
  induction n using Nat.strong_induction_on with
  | _ n ih =>
    intro s hlen hs t ht1 ht2 u
    rcases s with _ | ⟨a, rest⟩
    · simp [linearRaw]
    rcases List.eq_nil_or_concat' rest with hrest | ⟨mid, b, hrest⟩
    · subst hrest
      have h1 : sortedLowerMid [a] = a := by simp [sortedLowerMid]
      have h2 : sortedUpperMid [a] = a := by simp [sortedUpperMid]
      rw [h1] at ht1
      rw [h2] at ht2
      have hta : t = (a : ℚ) := le_antisymm ht2 ht1
      rw [hta]
      have h3 : linearRaw [a] (a : ℚ) = 0 := by
        simp [linearRaw, linTerm]
      rw [h3]
      have h4 : linearRaw [a] u = |(a : ℚ) - u| := by
        simp [linearRaw, linTerm]
      rw [h4]
      exact abs_nonneg _
    · subst hrest
      by_cases hmid : mid = []
      · subst hmid
        have hlow : sortedLowerMid (a :: ([] ++ [b])) = a := by
          simp [sortedLowerMid]
        have hup : sortedUpperMid (a :: ([] ++ [b])) = b := by
          simp [sortedUpperMid]
        rw [hlow] at ht1
        rw [hup] at ht2
        have hexp : ∀ x : ℚ, linearRaw (a :: ([] ++ [b])) x
            = |(a : ℚ) - x| + |(b : ℚ) - x| := by
          intro x
          simp [linearRaw, linTerm]
        rw [hexp t, hexp u]
        have h1 : |(a : ℚ) - t| = t - a := by
          rw [abs_of_nonpos (by linarith)]; ring
        have h2 : |(b : ℚ) - t| = b - t := abs_of_nonneg (by linarith)
        have h4 := neg_le_abs ((a : ℚ) - u)
        have h5 := le_abs_self ((b : ℚ) - u)
        linarith
      · have hlow := lowerMid_peel a b mid hmid
        have hup := upperMid_peel a b mid hmid
        rw [hlow] at ht1
        rw [hup] at ht2
        have hall : ∀ x ∈ mid ++ [b], a ≤ x := List.rel_of_sorted_cons hs
        have htail : (mid ++ [b]).Sorted (· ≤ ·) := hs.of_cons
        have hmid_sorted : mid.Sorted (· ≤ ·) := (List.pairwise_append.1 htail).1
        have hmid_le_b : ∀ x ∈ mid, x ≤ b := by
          intro x hx
          exact (List.pairwise_append.1 htail).2.2 x hx b (by simp)
        have hk : 1 ≤ mid.length := List.length_pos.2 hmid
        have hlowmem : sortedLowerMid mid ∈ mid := getD_mem_of_lt (by omega)
        have hupmem : sortedUpperMid mid ∈ mid := getD_mem_of_lt (by omega)
        have hat : (a : ℚ) ≤ t := by
          have h6 : a ≤ sortedLowerMid mid :=
            hall _ (List.mem_append_left _ hlowmem)
          have h7 : (a : ℚ) ≤ (sortedLowerMid mid : ℚ) := by exact_mod_cast h6
          linarith
        have htb : t ≤ (b : ℚ) := by
          have h6 : sortedUpperMid mid ≤ b := hmid_le_b _ hupmem
          have h7 : (sortedUpperMid mid : ℚ) ≤ (b : ℚ) := by exact_mod_cast h6
          linarith
        have hexp : ∀ x : ℚ, linearRaw (a :: (mid ++ [b])) x
            = |(a : ℚ) - x| + linearRaw mid x + |(b : ℚ) - x| := by
          intro x
          rw [linearRaw_cons, linearRaw_append]
          have h8 : linearRaw [b] x = |(b : ℚ) - x| := by
            simp [linearRaw, linTerm]
          rw [h8]
          unfold linTerm
          ring
        rw [hexp t, hexp u]
        have hlen2 : mid.length < n := by
          have h9 : (a :: (mid ++ [b])).length = mid.length + 2 := by simp
          omega
        have hIH := ih mid.length hlen2 mid rfl hmid_sorted t ht1 ht2 u
        have h1 : |(a : ℚ) - t| = t - a := by
          rw [abs_of_nonpos (by linarith)]; ring
        have h2 : |(b : ℚ) - t| = b - t := abs_of_nonneg (by linarith)
        have h4 := neg_le_abs ((a : ℚ) - u)
        have h5 := le_abs_self ((b : ℚ) - u)
        linarith

/-- The reported median lies between the two middle elements of the sorted
data. -/
lemma medianOfSorted_between {s : List ℤ} (hs : s.Sorted (· ≤ ·)) (h : s ≠ []) :
    (sortedLowerMid s : ℚ) ≤ medianOfSorted s
      ∧ medianOfSorted s ≤ (sortedUpperMid s : ℚ) := by
  have hpos : 0 < s.length := List.length_pos.2 h
  unfold medianOfSorted sortedLowerMid sortedUpperMid
  by_cases hpar : s.length % 2 = 1
  · rw [if_pos hpar]
    rw [show (s.length - 1) / 2 = s.length / 2 by omega]
    exact ⟨le_refl _, le_refl _⟩
  · rw [if_neg hpar]
    have hidx : (s.length - 1) / 2 = s.length / 2 - 1 := by omega
    have hlt : s.length / 2 < s.length := by omega
    have hle : s.length / 2 - 1 ≤ s.length / 2 := by omega
    have hmono := sorted_getD_mono hs hle hlt
    have hmono2 : (s.getD (s.length / 2 - 1) 0 : ℚ) ≤ (s.getD (s.length / 2) 0 : ℚ) := by
      exact_mod_cast hmono
    rw [hidx]
    constructor
    · linarith
    · linarith

/-! ### Claim theorems: the median and the linear cost (C1) -/

/-- C1 counterexample: the sample `[10]` drawn from `[0, 10]` has median
`10`, where the linear cost is `0`; but the brute-force scan over `[0, 10)`
never reaches `10`, and its minimum is `1` (attained at `9`).  So the
claimed equality fails whenever the median sits at the excluded upper
bound. -/
theorem C1_counterexample :
    ¬ ((randomListMk [10] 0 10).minimum_burn
          (fun j => (randomListMk [10] 0 10).linear_fuel_burn (j : ℚ))
        = some ((randomListMk [10] 0 10).linear_fuel_burn
            ((randomListMk [10] 0 10).median))) := by
  have h1 : (randomListMk [10] 0 10).minimum_burn
      (fun j => (randomListMk [10] 0 10).linear_fuel_burn (j : ℚ)) = some 1 := by
    norm_num [RandomList.minimum_burn, RandomList.linear_fuel_burn, randomListMk,
      compressedInsert, linTerm, List.range_succ, List.min?,
      show Int.toNat 10 = 10 from rfl, List.foldl, min_def]
  have h2 : (randomListMk [10] 0 10).linear_fuel_burn
      ((randomListMk [10] 0 10).median) = 0 := by
    norm_num [RandomList.linear_fuel_burn, RandomList.median, randomListMk,
      compressedInsert, linTerm, pyMedian, medianOfSorted, List.insertionSort,
      List.orderedInsert]
  rw [h1, h2]
  norm_num

/-- C1 amended: for a non-empty sample drawn from `[lo, hi]` with a
non-empty scan domain, provided the median is strictly below `upper_bound`
(so that an optimal integer target is inside the scanned half-open range),
the linear cost at the median equals the brute-force minimum over
`[lo, hi)`. -/
theorem C1_median_minimizes_linear (items : List ℤ) (lo hi : ℤ)
    (hne : items ≠ []) (hin : ∀ v ∈ items, lo ≤ v ∧ v ≤ hi) (hlt : lo < hi)
    (hmed : (randomListMk items lo hi).median < (hi : ℚ)) :
    (randomListMk items lo hi).minimum_burn
        (fun j => (randomListMk items lo hi).linear_fuel_burn (j : ℚ))
      = some ((randomListMk items lo hi).linear_fuel_burn
          ((randomListMk items lo hi).median)) := by
  set s := List.insertionSort (· ≤ ·) items with hsdef
  have hsort : s.Sorted (· ≤ ·) := List.sorted_insertionSort _ items
  have hperm : s.Perm items := List.perm_insertionSort _ items
  have hsne : s ≠ [] := by
    intro hcon
    have h0 := hperm.length_eq
    rw [hcon] at h0
    exact hne (List.eq_nil_of_length_eq_zero h0.symm)
  have hspos : 0 < s.length := List.length_pos.2 hsne
  have hmedeq : (randomListMk items lo hi).median = medianOfSorted s := rfl
  have hbet := medianOfSorted_between hsort hsne
  have hmain := sorted_between_min s.length s rfl hsort
  have hlowup : (sortedLowerMid s : ℚ) ≤ (sortedUpperMid s : ℚ) := by
    have h7 : sortedLowerMid s ≤ sortedUpperMid s := by
      unfold sortedLowerMid sortedUpperMid
      exact sorted_getD_mono hsort (by omega) (by omega)
    exact_mod_cast h7
  have hjmem : sortedLowerMid s ∈ items := by
    apply hperm.mem_iff.1
    unfold sortedLowerMid
    exact getD_mem_of_lt (by omega)
  have hjlo : lo ≤ sortedLowerMid s := (hin _ hjmem).1
  have hjlt : sortedLowerMid s < hi := by
    rw [hmedeq] at hmed
    have h8 : ((sortedLowerMid s : ℤ) : ℚ) < (hi : ℚ) := lt_of_le_of_lt hbet.1 hmed
    exact_mod_cast h8
  have hburn : ∀ x : ℚ, (randomListMk items lo hi).linear_fuel_burn x = linearRaw s x := by
    intro x
    rw [linear_burn_eq_raw]
    exact (linearRaw_perm hperm x).symm
  have hFeq : linearRaw s ((sortedLowerMid s : ℤ) : ℚ)
      = linearRaw s (medianOfSorted s) :=
    le_antisymm
      (hmain ((sortedLowerMid s : ℤ) : ℚ) (le_refl _) hlowup (medianOfSorted s))
      (hmain (medianOfSorted s) hbet.1 hbet.2 ((sortedLowerMid s : ℤ) : ℚ))
  have hfinal : (randomListMk items lo hi).minimum_burn
      (fun j => (randomListMk items lo hi).linear_fuel_burn (j : ℚ))
        = some ((randomListMk items lo hi).linear_fuel_burn
            ((sortedLowerMid s : ℤ) : ℚ)) := by
    apply minimum_burn_eq_of_min hjlo hjlt
    intro x hx1 hx2
    rw [hburn, hburn]
    exact hmain ((sortedLowerMid s : ℤ) : ℚ) (le_refl _) hlowup ((x : ℤ) : ℚ)
  rw [hfinal]
  congr 1
  rw [hburn, hburn, hmedeq, hFeq]

theorem C1_witness :
    (randomListMk [1, 2, 3] 0 5).minimum_burn
        (fun j => (randomListMk [1, 2, 3] 0 5).linear_fuel_burn (j : ℚ))
      = some ((randomListMk [1, 2, 3] 0 5).linear_fuel_burn
          ((randomListMk [1, 2, 3] 0 5).median)) :=
  C1_median_minimizes_linear [1, 2, 3] 0 5 (by decide)
    (by intro v hv; fin_cases hv <;> omega) (by decide)
    (by norm_num [RandomList.median, randomListMk, pyMedian, medianOfSorted,
      List.insertionSort, List.orderedInsert])

end AocStatistics
